import Mathlib

/-!
Shallow embedding of the balanced-ternary codec in
`src/nradix-driver/src/encoding.c` of the binary-optical-chip repository.

Modelling conventions:
* C `float` values are modelled as exact rationals (`ℚ`); `roundf` is
  round-to-nearest with halves away from zero, which is its C semantics.
* C `int` (32-bit) arithmetic that can overflow is modelled with an explicit
  two's-complement wrap `wrap32` (reduction mod 2^32 into [-2^31, 2^31)).
  Intermediate values that are provably in range (e.g. the shrinking `k`
  inside the digit loop, whose magnitude never grows) use plain `Int` with
  C's truncating division `Int.tdiv` / remainder `Int.tmod`.
* C `size_t` (64-bit unsigned) arithmetic is modelled mod 2^64 (`u64`).
* A possibly-NULL pointer argument is an `Option`; output buffers written
  through pointers become return values.  `float_matrix_to_ternary` returns
  the pair (status code, final contents of the output buffer) so that the
  "did the call touch the buffer" question is expressible.
* `ternary_to_float_matrix` returns (status code, list of floats written);
  on failure the list holds the prefix written before the failure point.
-/

namespace TernaryEncoding

attribute [local semireducible] Rat.mul Rat.add Rat.inv Rat.sub

set_option maxRecDepth 100000

/-- Two's-complement wraparound of a 32-bit signed int: reduce mod 2^32 into
the interval [-2^31, 2^31). -/
def wrap32 (x : Int) : Int := (x + 2 ^ 31) % 2 ^ 32 - 2 ^ 31

/-- Conversion of a C `int` value to `size_t` (64-bit unsigned): reduction
mod 2^64, as the C standard prescribes for signed-to-unsigned conversion. -/
def u64 (x : Int) : Nat := (x % 2 ^ 64).toNat

/-- The `clamp` helper (encoding.c lines 26-30): saturate a value
to [-1, 1]. -/
def clamp (v : ℚ) : ℚ := if v < -1 then -1 else if 1 < v then 1 else v

/-- C `roundf`: round to nearest integer, halves away from zero. -/
def roundHalfAway (q : ℚ) : Int := if q < 0 then -⌊-q + 1 / 2⌋ else ⌊q + 1 / 2⌋

/-- The `max_val` power loop of encoding.c lines 53-56: start from 1 and
multiply by 3 `n` times in 32-bit signed arithmetic (each product wraps). -/
def pow3wrap : Nat → Int
  | 0 => 1
  | n + 1 => wrap32 (pow3wrap n * 3)

/-- The computed `max_val = (max_val - 1) / 2` of encoding.c line 57, using
the wrapped power loop and C truncating division. -/
def maxValC (n : Nat) : Int := Int.tdiv (pow3wrap n - 1) 2

/-- One iteration of the balanced-ternary digit loop (encoding.c lines
63-81): C `%` is `Int.tmod`, C `/` is `Int.tdiv` (both truncate toward
zero); a nonzero negative remainder is shifted into {1, 2} by adding 3.
Returns (digit, next k).  The values of `k` reached from the entry points
shrink in magnitude at every step, so no 32-bit wrap can occur here. -/
def btStep (k : Int) : Int × Int :=
  let rem0 := Int.tmod k 3
  let rem := if k < 0 ∧ rem0 ≠ 0 then rem0 + 3 else rem0
  if rem = 0 then (0, Int.tdiv k 3)
  else if rem = 1 then (1, Int.tdiv k 3)
  else (-1, Int.tdiv (k + 1) 3)

/-- The digit loop of encoding.c lines 63-81 run `n` times, least
significant trit first. -/
def btList : Int → Nat → List Int
  | _, 0 => []
  | k, n + 1 => (btStep k).fst :: btList (btStep k).snd n

/-- The body of `float_to_balanced_ternary` after its argument check:
clamp, scale by the computed `max_val`, round, and extract `n` digits. -/
def encodeTrits (v : ℚ) (n : Nat) : List Int :=
  btList (roundHalfAway (clamp v * (maxValC n : ℚ))) n

/-- `float_to_balanced_ternary` (encoding.c lines 44-84).  The NULL-output
check and the `num_trits <= 0` check both return -1 before writing
anything; both are modelled by the `none` result (the trit output array is
modelled as the returned list). -/
def float_to_balanced_ternary (value : ℚ) (num_trits : Int) : Option (List Int) :=
  if num_trits ≤ 0 then none
  else some (encodeTrits value num_trits.toNat)

/-- The accumulation loop of `balanced_ternary_to_float` (encoding.c lines
97-102): `value += trits[i] * power; power *= 3`, both in 32-bit signed
arithmetic. -/
def btAccum : List Int → Int × Int → Int × Int
  | [], vp => vp
  | t :: ts, (v, p) => btAccum ts (wrap32 (v + t * p), wrap32 (p * 3))

/-- `balanced_ternary_to_float` (encoding.c lines 91-109).  A NULL trit
array or `num_trits <= 0` yields the benign default 0.0.  The loop reads
exactly `num_trits` trits; every in-repository caller supplies a list of
exactly that length. -/
def balanced_ternary_to_float (trits : List Int) (num_trits : Int) : ℚ :=
  if num_trits ≤ 0 then 0
  else
    let vp := btAccum (trits.take num_trits.toNat) (0, 1)
    let max_val := Int.tdiv (vp.snd - 1) 2
    (vp.fst : ℚ) / (max_val : ℚ)

/-- `pack_trits` (encoding.c lines 121-129): base-3 positional encoding of
five shifted trits, cast to `uint8_t` (reduction mod 256). -/
def pack_trits (t0 t1 t2 t3 t4 : Int) : Nat :=
  (((t0 + 1) + (t1 + 1) * 3 + (t2 + 1) * 9 + (t3 + 1) * 27 + (t4 + 1) * 81) % 256).toNat

/-- `unpack_trits` (encoding.c lines 137-150): successive division by 3,
each base-3 digit shifted back to {-1, 0, +1}.  The NULL-output check is
not modelled (the output array is the returned list). -/
def unpack_trits (packed : Nat) : List Int :=
  let p0 := packed
  let p1 := p0 / 3
  let p2 := p1 / 3
  let p3 := p2 / 3
  let p4 := p3 / 3
  [((p0 % 3 : Nat) : Int) - 1, ((p1 % 3 : Nat) : Int) - 1, ((p2 % 3 : Nat) : Int) - 1,
    ((p3 % 3 : Nat) : Int) - 1, ((p4 % 3 : Nat) : Int) - 1]

/-- `calculate_packed_size` (encoding.c lines 158-161):
`(size_t)rows * cols * trits_per_val` evaluated left to right in 64-bit
unsigned arithmetic, then ceiling division `(total_trits + 4) / 5`. -/
def calculate_packed_size (rows cols trits_per_val : Int) : Nat :=
  (u64 rows * u64 cols % 2 ^ 64 * u64 trits_per_val % 2 ^ 64 + 4) % 2 ^ 64 / 5

/-- Pack one 5-slot trit buffer (encoding.c lines 207-210 and 221-224);
slots beyond the filled prefix read 0, exactly as the explicit zero padding
of lines 217-220 produces. -/
def pack5 (l : List Int) : Nat :=
  pack_trits (l.getD 0 0) (l.getD 1 0) (l.getD 2 0) (l.getD 3 0) (l.getD 4 0)

/-- The streaming packer of `float_matrix_to_ternary` (encoding.c lines
202-225): append trits to a 5-slot accumulator, emit a packed byte each
time it fills, and after the stream ends emit one final byte for a
nonempty partial group (padded with zero trits). -/
def packStream : List Int → List Int → List Nat
  | [], acc => if acc.isEmpty then [] else [pack5 acc]
  | t :: ts, acc =>
    let acc2 := acc ++ [t]
    if acc2.length = 5 then pack5 acc2 :: packStream ts [] else packStream ts acc2

/-- The trit stream of `float_matrix_to_ternary` (encoding.c lines
198-203): the concatenation of the `trits_per_val` trits of every matrix
element in row-major order.  Elements past the end of the supplied list
would be an out-of-bounds read in C; they are given the default 0. -/
def matrixStream (m : List ℚ) (count n : Nat) : List Int :=
  ((List.range count).map fun i => encodeTrits (m.getD i 0) n).flatten

/-- `float_matrix_to_ternary` (encoding.c lines 171-228), check-for-check
in source order: NULL/non-positive argument check; required-size check
(both return -1 with the output buffer untouched); then `memset` zero-fill
of the whole buffer; then the `trits_per_val > 64` scratch-bound check
(returning -1 with the buffer already zeroed); then the streaming encode.
The result pairs the C return code with the final buffer contents.  The
element count `rows * cols` is the C `int` product, exact whenever it does
not overflow. -/
def float_matrix_to_ternary (matrix : Option (List ℚ)) (rows cols trits_per_val : Int)
    (packed : Option (List Nat)) : Int × Option (List Nat) :=
  match packed with
  | none => (-1, none)
  | some buf =>
    match matrix with
    | none => (-1, some buf)
    | some m =>
      if rows ≤ 0 ∨ cols ≤ 0 ∨ trits_per_val ≤ 0 then (-1, some buf)
      else if buf.length < calculate_packed_size rows cols trits_per_val then (-1, some buf)
      else if 64 < trits_per_val then (-1, some (List.replicate buf.length 0))
      else
        let bytes := packStream (matrixStream m (rows * cols).toNat trits_per_val.toNat) []
        (0, some (bytes ++ List.replicate (buf.length - bytes.length) 0))

/-- Decoder stream state: (packed_index, unpack_pos, current unpacked
group), exactly the three locals of encoding.c lines 251-253. -/
abbrev DecSt := Nat × Nat × List Int

/-- One execution of the body of the inner loop of `ternary_to_float_matrix`
(encoding.c lines 258-266): when the 5-trit group is exhausted, unpack the
next byte (failing with `none` when `packed_index >= packed_size`), then
deliver the next trit. -/
def nextTrit (buf : List Nat) (st : DecSt) : Option (Int × DecSt) :=
  if 5 ≤ st.2.1 then
    if buf.length ≤ st.1 then none
    else
      some ((unpack_trits (buf.getD st.1 0)).getD 0 0,
        (st.1 + 1, 1, unpack_trits (buf.getD st.1 0)))
  else some (st.2.2.getD st.2.1 0, (st.1, st.2.1 + 1, st.2.2))

/-- The inner loop of `ternary_to_float_matrix` (encoding.c lines 258-267):
collect `m` trits for one matrix element, threading the stream state. -/
def collectTrits (buf : List Nat) : Nat → DecSt → Option (List Int × DecSt)
  | 0, st => some ([], st)
  | m + 1, st =>
    match nextTrit buf st with
    | none => none
    | some (t, st2) =>
      match collectTrits buf m st2 with
      | none => none
      | some (ts, st3) => some (t :: ts, st3)

/-- The outer loop of `ternary_to_float_matrix` (encoding.c lines 256-271):
decode `e` elements; on starvation return `false` together with the prefix
of floats already written. -/
def decodeElems (buf : List Nat) (tpv : Nat) : Nat → DecSt → Bool × List ℚ
  | 0, _ => (true, [])
  | e + 1, st =>
    match collectTrits buf tpv st with
    | none => (false, [])
    | some (ts, st2) =>
      let r := decodeElems buf tpv e st2
      (r.fst, balanced_ternary_to_float ts (tpv : Int) :: r.snd)

/-- `ternary_to_float_matrix` (encoding.c lines 238-274).  The output
matrix pointer is modelled by the `matrixNull` flag (its prior contents are
never read); `packed_size` is the length of the supplied byte list.  The
initial state (0, 5, []) forces an unpack on the first trit request, as the
`unpack_pos = 5` initialisation of line 253 does. -/
def ternary_to_float_matrix (packed : Option (List Nat)) (trits_per_val : Int)
    (matrixNull : Bool) (rows cols : Int) : Int × List ℚ :=
  match packed with
  | none => (-1, [])
  | some buf =>
    if matrixNull ∨ rows ≤ 0 ∨ cols ≤ 0 ∨ trits_per_val ≤ 0 then (-1, [])
    else if 64 < trits_per_val then (-1, [])
    else
      let r := decodeElems buf trits_per_val.toNat (rows * cols).toNat (0, 5, [])
      (if r.fst then 0 else -1, r.snd)

/-- The 3x3 test matrix of the matrix round-trip property, the decimal
literals taken exactly (the divergence proved about it is three orders of
magnitude larger than any float-representation error of the literals). -/
def testMatrix : List ℚ :=
  [-1, -1/2, 0, 33/100, 1/2, 3/4, 1, -3/4, 1/10]

/-- The encode-then-decode result of the test matrix at 8 trits per value,
through a packed buffer of exactly `calculate_packed_size 3 3 8` bytes. -/
def testRoundTrip : Int × List ℚ :=
  ternary_to_float_matrix
    (some ((float_matrix_to_ternary (some testMatrix) 3 3 8
        (some (List.replicate (calculate_packed_size 3 3 8) 0))).snd.getD []))
    8 false 3 3

/-- Claim C1: the scalar round-trip accuracy bound fails at num_trits = 2,
value = -1/2 (in range [-1, 1], n in 1..20).  The code clamps -1/2, scales
by max_val = 4 and rounds to k = -2; the rem == 1 branch of the digit loop
then divides -2 by 3 with C truncating (toward zero) division, losing the
borrow, so the emitted trits are [1, 0], which decode to +1/4.  The
round-trip error is 3/4, exceeding the claimed bound 1/max_val(2) = 1/4. -/
theorem scalar_roundtrip_failing_input :
    float_to_balanced_ternary (-1/2) 2 = some [1, 0] ∧
      balanced_ternary_to_float [1, 0] 2 = 1/4 ∧
      ¬|balanced_ternary_to_float [1, 0] 2 - (-1/2)| ≤ 1 / (((3 : ℚ) ^ 2 - 1) / 2) := by
  decide

/-- Claim C2: for every quintuple of trits in {-1, 0, +1}, unpacking the
packed byte returns exactly the five trits in order, and the packed byte is
at most 242. -/
theorem pack_unpack_bijection (t0 t1 t2 t3 t4 : Int)
    (h0 : t0 ∈ ([-1, 0, 1] : List Int)) (h1 : t1 ∈ ([-1, 0, 1] : List Int))
    (h2 : t2 ∈ ([-1, 0, 1] : List Int)) (h3 : t3 ∈ ([-1, 0, 1] : List Int))
    (h4 : t4 ∈ ([-1, 0, 1] : List Int)) :
    unpack_trits (pack_trits t0 t1 t2 t3 t4) = [t0, t1, t2, t3, t4] ∧
      pack_trits t0 t1 t2 t3 t4 ≤ 242 := by
  fin_cases h0 <;> fin_cases h1 <;> fin_cases h2 <;> fin_cases h3 <;> fin_cases h4 <;> decide

/-- Witness for C2 at the quintuple (1, -1, 0, 1, 1). -/
theorem pack_unpack_bijection_witness :
    unpack_trits (pack_trits 1 (-1) 0 1 1) = [1, -1, 0, 1, 1] ∧
      pack_trits 1 (-1) 0 1 1 ≤ 242 :=
  pack_unpack_bijection 1 (-1) 0 1 1 (by decide) (by decide) (by decide) (by decide) (by decide)

/-- Claim C4: the matrix round-trip property fails on the given 3x3 matrix
with trits_per_val = 8.  Encode and decode both succeed (return 0), but
element 1 (value -1/2) comes back as +1/4: the same truncating-division
slip as in the scalar case (k = -1640 is congruent to 1 mod 3 and
negative).  Its error 3/4 exceeds the claimed bound 1/3280. -/
theorem matrix_roundtrip_failing_input :
    (float_matrix_to_ternary (some testMatrix) 3 3 8
        (some (List.replicate (calculate_packed_size 3 3 8) 0))).fst = 0 ∧
      testRoundTrip.fst = 0 ∧
      testRoundTrip.snd.getD 1 0 = 1/4 ∧
      ¬|testRoundTrip.snd.getD 1 0 - testMatrix.getD 1 0| ≤ 1 / 3280 := by
  decide

/-- Claim C8: unpacking succeeds for every byte 0..255 (including the
values 243..255 that pack never produces), always yields 5 trits, and
every produced trit lies in {-1, 0, +1}. -/
theorem unpack_total_inrange :
    ∀ b : Nat, b < 256 →
      (unpack_trits b).length = 5 ∧ ∀ t ∈ unpack_trits b, t = -1 ∨ t = 0 ∨ t = 1 := by
  decide

/-- Witness for C8 at the unreachable pack output 243. -/
theorem unpack_total_inrange_witness :
    (unpack_trits 243).length = 5 ∧ ∀ t ∈ unpack_trits 243, t = -1 ∨ t = 0 ∨ t = 1 :=
  unpack_total_inrange 243 (by decide)

/-- Claim C10: the max_val computed by the 32-bit multiply-by-3 loop (used
by `float_to_balanced_ternary`, and recomputed identically as `power` by
`balanced_ternary_to_float`, whose normalizer on a unit trit vector is
exhibited in the second conjunct) equals the exact (3^n - 1) / 2 precisely
for n <= 19; for n = 20..64 the wrapped loop diverges from it, while both
matrix entry points still accept trits_per_val up to 64 (final two
conjuncts: a 1x1 encode and decode at trits_per_val = 64 succeed). -/
theorem maxval_overflow :
    (∀ n : Nat, n ≤ 64 → 1 ≤ n → (maxValC n = ((3 : Int) ^ n - 1) / 2 ↔ n ≤ 19)) ∧
      (∀ n : Nat, n ≤ 64 → 1 ≤ n →
        balanced_ternary_to_float (1 :: List.replicate (n - 1) 0) (n : Int)
          = 1 / (maxValC n : ℚ)) ∧
      (float_matrix_to_ternary (some [0]) 1 1 64 (some (List.replicate 13 0))).fst = 0 ∧
      (ternary_to_float_matrix (some (List.replicate 13 0)) 64 false 1 1).fst = 0 := by
  decide

/-- Witness for C10 at n = 20, the first precision where the 32-bit loop
wraps: the computed max_val differs from (3^20 - 1) / 2. -/
theorem maxval_overflow_witness :
    ¬maxValC 20 = ((3 : Int) ^ 20 - 1) / 2 := fun h =>
  absurd ((maxval_overflow.1 20 (by decide) (by decide)).mp h) (by decide)

/-- Counterexample to claim C3 as stated: at rows = cols = 2147483647 (both
positive int values) and trits_per_val = 64, the 64-bit size_t product
wraps, so `calculate_packed_size` is not the ceiling of
rows * cols * trits_per_val / 5. -/
theorem packed_size_overflow_cex :
    calculate_packed_size 2147483647 2147483647 64 ≠
      ((2147483647 * 2147483647 * 64 : Nat) + 4) / 5 := by
  decide

lemma u64_natCast (m : Nat) (hm : m < 2 ^ 64) : u64 (m : Int) = m := by
  unfold u64
  rw [Int.emod_eq_of_lt (by positivity) (by exact_mod_cast hm)]
  exact Int.toNat_natCast m

lemma packed_size_eq (rows cols trits_per_val : Int)
    (hr : 0 < rows) (hc : 0 < cols) (ht : 0 < trits_per_val)
    (hb : rows * cols * trits_per_val + 4 < 2 ^ 64) :
    calculate_packed_size rows cols trits_per_val
      = ((rows * cols * trits_per_val).toNat + 4) / 5 := by
  obtain ⟨r, rfl⟩ : ∃ m : ℕ, rows = (m : ℤ) := ⟨rows.toNat, (Int.toNat_of_nonneg hr.le).symm⟩
  obtain ⟨c, rfl⟩ : ∃ m : ℕ, cols = (m : ℤ) := ⟨cols.toNat, (Int.toNat_of_nonneg hc.le).symm⟩
  obtain ⟨t, rfl⟩ : ∃ m : ℕ, trits_per_val = (m : ℤ) :=
    ⟨trits_per_val.toNat, (Int.toNat_of_nonneg ht.le).symm⟩
  have hr' : 0 < r := by exact_mod_cast hr
  have hc' : 0 < c := by exact_mod_cast hc
  have ht' : 0 < t := by exact_mod_cast ht
  have hb' : r * c * t + 4 < 2 ^ 64 := by exact_mod_cast hb
  have hP : r * c * t < 2 ^ 64 := by omega
  have hrc_le : r * c ≤ r * c * t := Nat.le_mul_of_pos_right _ ht'
  have hr_le : r ≤ r * c * t := le_trans (Nat.le_mul_of_pos_right _ hc') hrc_le
  have hc_le : c ≤ r * c * t := le_trans (Nat.le_mul_of_pos_left _ hr') hrc_le
  have ht_le : t ≤ r * c * t := Nat.le_mul_of_pos_left _ (mul_pos hr' hc')
  unfold calculate_packed_size
  rw [u64_natCast r (lt_of_le_of_lt hr_le hP), u64_natCast c (lt_of_le_of_lt hc_le hP),
    u64_natCast t (lt_of_le_of_lt ht_le hP),
    Nat.mod_eq_of_lt (show r * c < 2 ^ 64 from lt_of_le_of_lt hrc_le hP),
    Nat.mod_eq_of_lt (show r * c * t < 2 ^ 64 from hP),
    Nat.mod_eq_of_lt (show r * c * t + 4 < 2 ^ 64 from hb'),
    show ((r : ℤ) * c * t) = ((r * c * t : ℕ) : ℤ) by push_cast; ring, Int.toNat_natCast]

/-- Claim C3, amended: the size formula holds for all positive dimensions
whose total trit count does not wrap the 64-bit size_t arithmetic
(rows * cols * trits_per_val + 4 < 2^64); the three concrete examples
hold.  (As stated over all positive int arguments the claim fails; see the
counterexample with rows = cols = 2147483647, trits_per_val = 64.) -/
theorem packed_size_formula (rows cols trits_per_val : Int)
    (hr : 0 < rows) (hc : 0 < cols) (ht : 0 < trits_per_val)
    (hb : rows * cols * trits_per_val + 4 < 2 ^ 64) :
    calculate_packed_size rows cols trits_per_val
        = ((rows * cols * trits_per_val).toNat + 4) / 5 ∧
      calculate_packed_size 2 3 5 = 6 ∧
      calculate_packed_size 1 1 1 = 1 ∧
      calculate_packed_size 3 3 5 = 9 :=
  ⟨packed_size_eq rows cols trits_per_val hr hc ht hb, by decide, by decide, by decide⟩

/-- Witness for the amended C3 at (rows, cols, trits_per_val) = (2, 3, 5). -/
theorem packed_size_formula_witness :
    calculate_packed_size 2 3 5 = (((2 * 3 * 5 : Int)).toNat + 4) / 5 ∧
      calculate_packed_size 2 3 5 = 6 ∧
      calculate_packed_size 1 1 1 = 1 ∧
      calculate_packed_size 3 3 5 = 9 :=
  packed_size_formula 2 3 5 (by norm_num) (by norm_num) (by norm_num) (by norm_num)

/-- Claim C9: any value above 1 encodes exactly as 1 does and any value
below -1 exactly as -1 does (the clamp runs before everything else), and
in particular encode(5/2, 4) = encode(1, 4) and encode(-7, 4) =
encode(-1, 4); the return codes (the `some`) agree as well. -/
theorem clamp_saturates (v : ℚ) (n : Int) :
    (1 < v → float_to_balanced_ternary v n = float_to_balanced_ternary 1 n) ∧
      (v < -1 → float_to_balanced_ternary v n = float_to_balanced_ternary (-1) n) ∧
      float_to_balanced_ternary (5/2) 4 = float_to_balanced_ternary 1 4 ∧
      float_to_balanced_ternary (-7) 4 = float_to_balanced_ternary (-1) 4 := by
  have congrF : ∀ (a b : ℚ) (m : Int), clamp a = clamp b →
      float_to_balanced_ternary a m = float_to_balanced_ternary b m := by
    intro a b m hab
    unfold float_to_balanced_ternary encodeTrits
    rw [hab]
  have c1 : clamp (1 : ℚ) = 1 := by norm_num [clamp]
  have cm1 : clamp (-1 : ℚ) = -1 := by norm_num [clamp]
  have hi : ∀ w : ℚ, 1 < w → clamp w = 1 := by
    intro w h
    unfold clamp
    rw [if_neg (by linarith), if_pos h]
  have lo : ∀ w : ℚ, w < -1 → clamp w = -1 := by
    intro w h
    unfold clamp
    rw [if_pos h]
  exact ⟨fun h => congrF v 1 n (by rw [hi v h, c1]),
    fun h => congrF v (-1) n (by rw [lo v h, cm1]),
    congrF (5/2) 1 4 (by rw [hi (5/2) (by norm_num), c1]),
    congrF (-7) (-1) 4 (by rw [lo (-7) (by norm_num), cm1])⟩

/-- Witness for C9 at v = 3, n = 2. -/
theorem clamp_saturates_witness :
    float_to_balanced_ternary 3 2 = float_to_balanced_ternary 1 2 :=
  (clamp_saturates 3 2).1 (by norm_num)

/-- Claim C7: whenever the supplied buffer is one byte shorter than
`calculate_packed_size`, the encoder fails with -1 and the buffer is
returned exactly as supplied — the undersize check runs before the
`memset`, so not even the first byte is touched. -/
theorem encode_undersized_atomic (matrix : Option (List ℚ)) (rows cols trits_per_val : Int)
    (buf : List Nat) (h : buf.length + 1 = calculate_packed_size rows cols trits_per_val) :
    (float_matrix_to_ternary matrix rows cols trits_per_val (some buf)).fst = -1 ∧
      (float_matrix_to_ternary matrix rows cols trits_per_val (some buf)).snd = some buf := by
  have hlt : buf.length < calculate_packed_size rows cols trits_per_val := by omega
  cases matrix with
  | none => exact ⟨rfl, rfl⟩
  | some m =>
    simp only [float_matrix_to_ternary]
    by_cases h1 : rows ≤ 0 ∨ cols ≤ 0 ∨ trits_per_val ≤ 0
    · rw [if_pos h1]
      exact ⟨rfl, rfl⟩
    · rw [if_neg h1, if_pos hlt]
      exact ⟨rfl, rfl⟩

/-- Witness for C7: a 1x1 matrix at trits_per_val = 5 needs 1 byte; the
empty buffer is one byte short. -/
theorem encode_undersized_atomic_witness :
    (float_matrix_to_ternary (some [0]) 1 1 5 (some [])).fst = -1 ∧
      (float_matrix_to_ternary (some [0]) 1 1 5 (some [])).snd = some [] :=
  encode_undersized_atomic (some [0]) 1 1 5 [] (by decide)

/-- Claim C6: the encoder fails (returns -1) exactly when the matrix is
NULL, the output buffer is NULL (second conjunct), a dimension or the
precision is non-positive, the precision exceeds 64, or the buffer is
smaller than `calculate_packed_size`; in particular trits_per_val = 65 is
rejected by the encoder and by the decoder (last two conjuncts). -/
theorem encode_validation_iff (matrix : Option (List ℚ)) (rows cols trits_per_val : Int)
    (buf : List Nat) :
    ((float_matrix_to_ternary matrix rows cols trits_per_val (some buf)).fst = -1 ↔
        matrix = none ∨ rows ≤ 0 ∨ cols ≤ 0 ∨ trits_per_val ≤ 0 ∨ 64 < trits_per_val ∨
          buf.length < calculate_packed_size rows cols trits_per_val) ∧
      (float_matrix_to_ternary matrix rows cols trits_per_val none).fst = -1 ∧
      (float_matrix_to_ternary matrix rows cols 65 (some buf)).fst = -1 ∧
      (ternary_to_float_matrix (some buf) 65 false rows cols).fst = -1 := by
  refine ⟨?_, by cases matrix <;> rfl, ?_, ?_⟩
  · cases matrix with
    | none => exact iff_of_true rfl (Or.inl rfl)
    | some m =>
      simp only [float_matrix_to_ternary]
      by_cases h1 : rows ≤ 0 ∨ cols ≤ 0 ∨ trits_per_val ≤ 0
      · rw [if_pos h1]
        exact iff_of_true rfl (by tauto)
      · rw [if_neg h1]
        by_cases h2 : buf.length < calculate_packed_size rows cols trits_per_val
        · rw [if_pos h2]
          exact iff_of_true rfl (by tauto)
        · rw [if_neg h2]
          by_cases h3 : 64 < trits_per_val
          · rw [if_pos h3]
            exact iff_of_true rfl (by tauto)
          · rw [if_neg h3]
            refine iff_of_false (by norm_num) ?_
            push_neg at h1
            rintro (h | h | h | h | h | h)
            · exact Option.noConfusion h
            · omega
            · omega
            · omega
            · omega
            · omega
  · cases matrix with
    | none => rfl
    | some m =>
      simp only [float_matrix_to_ternary]
      by_cases h1 : rows ≤ 0 ∨ cols ≤ 0 ∨ (65 : Int) ≤ 0
      · rw [if_pos h1]
      · rw [if_neg h1]
        by_cases h2 : buf.length < calculate_packed_size rows cols 65
        · rw [if_pos h2]
        · rw [if_neg h2, if_pos (by norm_num : (64 : Int) < 65)]
  · simp only [ternary_to_float_matrix]
    by_cases h1 : (false : Bool) = true ∨ rows ≤ 0 ∨ cols ≤ 0 ∨ (65 : Int) ≤ 0
    · rw [if_pos h1]
    · rw [if_neg h1, if_pos (by norm_num : (64 : Int) < 65)]

lemma toNat_mul_of_nonneg {a b : Int} (ha : 0 ≤ a) (hb : 0 ≤ b) :
    (a * b).toNat = a.toNat * b.toNat := by
  have h : ((a * b).toNat : Int) = ((a.toNat * b.toNat : Nat) : Int) := by
    rw [Int.toNat_of_nonneg (mul_nonneg ha hb), Nat.cast_mul,
      Int.toNat_of_nonneg ha, Int.toNat_of_nonneg hb]
  exact_mod_cast h

/-- Invariant of the decoder stream state: after `c` trits have been
delivered from a buffer of `len` bytes, `c + 5 = 5 * packed_index +
unpack_pos`, the cursor lies in 1..5 (5 before the first unpack), and at
most `len` bytes were consumed. -/
def decInv (len c : Nat) (st : DecSt) : Prop :=
  1 ≤ st.2.1 ∧ st.2.1 ≤ 5 ∧ st.1 ≤ len ∧ c + 5 = 5 * st.1 + st.2.1

lemma decInv_init (len : Nat) : decInv len 0 (0, 5, []) :=
  ⟨by norm_num, by norm_num, Nat.zero_le _, by norm_num⟩

lemma nextTrit_none_iff {buf : List Nat} {st : DecSt} {c : Nat}
    (h : decInv buf.length c st) :
    nextTrit buf st = none ↔ 5 * buf.length ≤ c := by
  obtain ⟨h1, h2, h3, h4⟩ := h
  unfold nextTrit
  split_ifs with hup hpi
  · exact iff_of_true rfl (by omega)
  · exact iff_of_false (by simp) (by omega)
  · exact iff_of_false (by simp) (by omega)

lemma nextTrit_inv_snd {buf : List Nat} {st : DecSt} {c : Nat}
    (h : decInv buf.length c st) :
    ∀ p : Int × DecSt, nextTrit buf st = some p → decInv buf.length (c + 1) p.2 := by
  obtain ⟨h1, h2, h3, h4⟩ := h
  intro p he
  unfold nextTrit at he
  split_ifs at he with hup hpi
  · cases he
    unfold decInv
    dsimp only
    omega
  · cases he
    unfold decInv
    dsimp only
    omega

lemma nextTrit_append {buf extra : List Nat} {st : DecSt} {c : Nat}
    (h : decInv buf.length c st) (hlt : c < 5 * buf.length) :
    nextTrit (buf ++ extra) st = nextTrit buf st := by
  obtain ⟨h1, h2, h3, h4⟩ := h
  unfold nextTrit
  by_cases hup : 5 ≤ st.2.1
  · have hpi : st.1 < buf.length := by omega
    rw [if_pos hup, if_pos hup, if_neg (show ¬buf.length ≤ st.1 by omega),
      if_neg (show ¬(buf ++ extra).length ≤ st.1 by rw [List.length_append]; omega),
      List.getD_append _ _ _ _ hpi]
  · rw [if_neg hup, if_neg hup]

lemma collect_none_iff {buf : List Nat} :
    ∀ (m : Nat) (st : DecSt) (c : Nat), decInv buf.length c st →
      (collectTrits buf m st = none ↔ 5 * buf.length < c + m) := by
  intro m
  induction m with
  | zero =>
    intro st c h
    obtain ⟨h1, h2, h3, h4⟩ := h
    simp only [collectTrits]
    exact iff_of_false (by simp) (by omega)
  | succ m ih =>
    intro st c h
    simp only [collectTrits]
    split
    · rename_i heq
      have hge := (nextTrit_none_iff h).mp heq
      exact iff_of_true rfl (by omega)
    · rename_i t st2 heq
      have hlt : ¬5 * buf.length ≤ c := fun hcc =>
        Option.noConfusion ((nextTrit_none_iff h).mpr hcc ▸ heq)
      have hinv2 := nextTrit_inv_snd h (t, st2) heq
      split
      · rename_i heq2
        have := (ih st2 (c + 1) hinv2).mp heq2
        exact iff_of_true rfl (by omega)
      · rename_i ts st3 heq2
        refine iff_of_false (by simp) ?_
        intro hcc
        have := (ih st2 (c + 1) hinv2).mpr (by omega)
        rw [this] at heq2
        exact Option.noConfusion heq2

lemma collect_inv {buf : List Nat} :
    ∀ (m : Nat) (st : DecSt) (c : Nat), decInv buf.length c st →
      ∀ q : List Int × DecSt, collectTrits buf m st = some q →
        decInv buf.length (c + m) q.2 := by
  intro m
  induction m with
  | zero =>
    intro st c h q hq
    simp only [collectTrits] at hq
    cases hq
    exact h
  | succ m ih =>
    intro st c h q hq
    simp only [collectTrits] at hq
    split at hq
    · exact Option.noConfusion hq
    · rename_i t st2 heq
      split at hq
      · exact Option.noConfusion hq
      · rename_i ts st3 heq2
        cases hq
        have hinv2 := nextTrit_inv_snd h (t, st2) heq
        have h3 := ih st2 (c + 1) hinv2 (ts, st3) heq2
        have harith : c + 1 + m = c + (m + 1) := by omega
        rwa [harith] at h3

lemma collect_append {buf extra : List Nat} :
    ∀ (m : Nat) (st : DecSt) (c : Nat), decInv buf.length c st →
      c + m ≤ 5 * buf.length →
      collectTrits (buf ++ extra) m st = collectTrits buf m st := by
  intro m
  induction m with
  | zero =>
    intro st c h hle
    rfl
  | succ m ih =>
    intro st c h hle
    have hlt : c < 5 * buf.length := by omega
    simp only [collectTrits]
    rw [nextTrit_append h hlt]
    split
    · rfl
    · rename_i t st2 heq
      have hinv2 := nextTrit_inv_snd h (t, st2) heq
      rw [ih st2 (c + 1) hinv2 (by omega)]

lemma decodeElems_false_iff {buf : List Nat} {tpv : Nat} (_htpv : 1 ≤ tpv) :
    ∀ (e : Nat) (st : DecSt) (c : Nat), decInv buf.length c st →
      ((decodeElems buf tpv e st).fst = false ↔ 5 * buf.length < c + e * tpv) := by
  intro e
  induction e with
  | zero =>
    intro st c h
    obtain ⟨h1, h2, h3, h4⟩ := h
    simp only [decodeElems]
    exact iff_of_false (by simp) (by omega)
  | succ e ih =>
    intro st c h
    simp only [decodeElems]
    split
    · rename_i heq
      have h5 := (collect_none_iff tpv st c h).mp heq
      have hmul : tpv + e * tpv = (e + 1) * tpv := by ring
      exact iff_of_true rfl (by omega)
    · rename_i ts st3 heq
      have hinv3 := collect_inv tpv st c h (ts, st3) heq
      have hle : c + tpv ≤ 5 * buf.length := by
        by_contra hcc
        rw [(collect_none_iff tpv st c h).mpr (by omega)] at heq
        exact Option.noConfusion heq
      have hrec := ih st3 (c + tpv) hinv3
      have hmul : tpv + e * tpv = (e + 1) * tpv := by ring
      simp only []
      constructor
      · intro hfst
        have := hrec.mp hfst
        omega
      · intro hbig
        exact hrec.mpr (by omega)

lemma decodeElems_append {buf extra : List Nat} {tpv : Nat} :
    ∀ (e : Nat) (st : DecSt) (c : Nat), decInv buf.length c st →
      c + e * tpv ≤ 5 * buf.length →
      decodeElems (buf ++ extra) tpv e st = decodeElems buf tpv e st := by
  intro e
  induction e with
  | zero =>
    intro st c h hle
    rfl
  | succ e ih =>
    intro st c h hle
    have hmul : tpv + e * tpv = (e + 1) * tpv := by ring
    have htle : c + tpv ≤ 5 * buf.length := by omega
    simp only [decodeElems]
    rw [collect_append tpv st c h htle]
    split
    · rfl
    · rename_i ts st3 heq
      have hinv3 := collect_inv tpv st c h (ts, st3) heq
      rw [ih st3 (c + tpv) hinv3 (by omega)]

/-- Claim C5: for a non-NULL packed buffer and output matrix, positive
dimensions whose product fits a 32-bit int, and 1 <= trits_per_val <= 64,
the decoder fails (returns -1) exactly when the buffer holds fewer than
`calculate_packed_size` bytes; and when the buffer is at least that large,
the whole result coincides with decoding just the first
`calculate_packed_size` bytes — the excess bytes are ignored and no byte
at or past index `calculate_packed_size` (in particular none past
`packed_size`) is ever consumed. -/
theorem decode_starvation (buf : List Nat) (rows cols trits_per_val : Int)
    (hr : 0 < rows) (hc : 0 < cols) (ht : 1 ≤ trits_per_val) (ht64 : trits_per_val ≤ 64)
    (hrc : rows * cols ≤ 2147483647) :
    ((ternary_to_float_matrix (some buf) trits_per_val false rows cols).fst = -1 ↔
        buf.length < calculate_packed_size rows cols trits_per_val) ∧
      (calculate_packed_size rows cols trits_per_val ≤ buf.length →
        ternary_to_float_matrix (some buf) trits_per_val false rows cols =
          ternary_to_float_matrix
            (some (buf.take (calculate_packed_size rows cols trits_per_val)))
            trits_per_val false rows cols) := by
  have hrc0 : 0 < rows * cols := mul_pos hr hc
  have hprodle : rows * cols * trits_per_val ≤ 2147483647 * 64 :=
    mul_le_mul hrc ht64 (by omega) (by omega)
  have hb : rows * cols * trits_per_val + 4 < 2 ^ 64 := by omega
  have hreq : calculate_packed_size rows cols trits_per_val
      = ((rows * cols).toNat * trits_per_val.toNat + 4) / 5 := by
    rw [packed_size_eq rows cols trits_per_val hr hc (by omega) hb,
      toNat_mul_of_nonneg hrc0.le (by omega)]
  have hmain : ∀ b : List Nat,
      ternary_to_float_matrix (some b) trits_per_val false rows cols
        = (if (decodeElems b trits_per_val.toNat (rows * cols).toNat (0, 5, [])).fst
            then 0 else -1,
          (decodeElems b trits_per_val.toNat (rows * cols).toNat (0, 5, [])).snd) := by
    intro b
    simp only [ternary_to_float_matrix]
    rw [if_neg, if_neg (show ¬(64 : Int) < trits_per_val by omega)]
    rintro (h | h | h | h)
    · exact Bool.noConfusion h
    · omega
    · omega
    · omega
  have harith : ∀ len T : Nat, len < (T + 4) / 5 ↔ 5 * len < T := fun len T => by omega
  have hiff := @decodeElems_false_iff buf trits_per_val.toNat
    (by omega) (rows * cols).toNat (0, 5, []) 0 (decInv_init _)
  constructor
  · rw [hmain buf, hreq]
    cases hX : (decodeElems buf trits_per_val.toNat (rows * cols).toNat (0, 5, [])).fst with
    | true =>
      refine iff_of_false (by simp) ?_
      intro hlen
      have h5 := (harith _ _).mp hlen
      have := hiff.mpr (by omega)
      rw [hX] at this
      exact Bool.noConfusion this
    | false =>
      refine iff_of_true (by simp) ?_
      have h5 := hiff.mp hX
      exact (harith _ _).mpr (by omega)
  · intro hge
    have hlen2 : (buf.take (calculate_packed_size rows cols trits_per_val)).length
        = calculate_packed_size rows cols trits_per_val := by
      rw [List.length_take]
      omega
    have hcover : 0 + (rows * cols).toNat * trits_per_val.toNat
        ≤ 5 * (buf.take (calculate_packed_size rows cols trits_per_val)).length := by
      rw [hlen2, hreq]
      omega
    have happ := @decodeElems_append
      (buf.take (calculate_packed_size rows cols trits_per_val))
      (buf.drop (calculate_packed_size rows cols trits_per_val))
      trits_per_val.toNat
      (rows * cols).toNat (0, 5, []) 0 (decInv_init _) hcover
    rw [List.take_append_drop] at happ
    rw [hmain buf, hmain (buf.take (calculate_packed_size rows cols trits_per_val)), happ]

/-- Witness for C5: a 1x1 matrix at trits_per_val = 5 needs 1 byte; a
2-byte buffer succeeds and decodes identically to its 1-byte prefix. -/
theorem decode_starvation_witness :
    ((ternary_to_float_matrix (some [40, 7]) 5 false 1 1).fst = -1 ↔
        [40, 7].length < calculate_packed_size 1 1 5) ∧
      (calculate_packed_size 1 1 5 ≤ [40, 7].length →
        ternary_to_float_matrix (some [40, 7]) 5 false 1 1 =
          ternary_to_float_matrix (some ([40, 7].take (calculate_packed_size 1 1 5)))
            5 false 1 1) :=
  decode_starvation [40, 7] 1 1 5 (by norm_num) (by norm_num) (by norm_num) (by norm_num)
    (by norm_num)

end TernaryEncoding
